import Mathlib

/-!
Verification of the `MHPv1` dataset component (src/datasets/mhpv1.py).

The development shallowly embeds the component's data model and operations:

* annotation images are H×W arrays of unsigned 8-bit class values, embedded
  as `List (List Nat)` whose entries are < 256 (uint8); uint8 arithmetic is
  made explicit with `% 256`;
* the label-fusion loop `read_label` is embedded step by step, following the
  numpy masked-array semantics of the source:
  - `label = np.ma.masked_array(label, mask=label_idx)` masks exactly the
    pixels where `label_idx` is non-zero at the start of the iteration;
  - `label_idx += np.minimum(label, 1)` has a plain `np.ndarray` on the
    left-hand side, so `ndarray.__iadd__` runs `np.add(label_idx, ·,
    out=label_idx)` on the raw `.data` buffers and the mask is ignored:
    every pixel with a non-zero raw value in the current annotation image
    increments the accumulator, claimed or not (uint8, wrapping);
  - `labels += label` has the masked array `labels` on the left-hand side,
    so `MaskedArray.__iadd__` runs: it first ors the right-hand mask into
    `labels._mask` and then adds the right-hand raw data where the updated
    `labels._mask` is False, adding 0 where it is True;
  - the function returns `labels.data`, the raw buffer of the accumulator;
* the file-index builder `get_files` and the constructor checks of
  `__init__` are embedded over an abstract listing of the annotation
  directory (filenames as `List Char`) and in-memory manifests, with each
  `assert` modelled as an `Option` failure;
* the palette decoder `decode` is embedded as an elementwise table lookup
  that fails (like torch advanced indexing) on an out-of-range index.
-/

namespace MHPV1

/-! ## List access helpers -/

/-- Element of a list of lists at row `i`, column `j`, with default `d`. -/
def at2 {α : Type} (d : α) (A : List (List α)) (i j : Nat) : α :=
  (A.getD i []).getD j d

/-- `getD` through `List.map`, in bounds. -/
theorem getD_map_lt {α β : Type} (f : α → β) :
    ∀ (l : List α) (i : Nat), i < l.length → ∀ (da : α) (db : β),
      (l.map f).getD i db = f (l.getD i da) := by
  intro l
  induction l with
  | nil => intro i hi; cases hi
  | cons a t ih =>
    intro i hi da db
    cases i with
    | zero => rfl
    | succ k => exact ih k (Nat.lt_of_succ_lt_succ hi) da db

/-- `getD` through `List.zipWith`, in bounds on both sides. -/
theorem getD_zipWith_lt {α β γ : Type} (f : α → β → γ) :
    ∀ (as : List α) (bs : List β) (i : Nat), i < as.length → i < bs.length →
      ∀ (da : α) (db : β) (dc : γ),
      (List.zipWith f as bs).getD i dc = f (as.getD i da) (bs.getD i db) := by
  intro as
  induction as with
  | nil => intro bs i hi; cases hi
  | cons a t ih =>
    intro bs i hi hib da db dc
    cases bs with
    | nil => cases hib
    | cons b tb =>
      cases i with
      | zero => rfl
      | succ k =>
        exact ih tb k (Nat.lt_of_succ_lt_succ hi) (Nat.lt_of_succ_lt_succ hib) da db dc

/-- An in-bounds `getD` is a member of the list. -/
theorem getD_mem_lt {α : Type} (l : List α) (i : Nat) (h : i < l.length) (d : α) :
    l.getD i d ∈ l := by
  rw [List.getD_eq_getElem l d h]
  exact List.getElem_mem h

/-- `find?` distributes over append. -/
theorem find?_append_eq {α : Type} (p : α → Bool) (l1 l2 : List α) :
    (l1 ++ l2).find? p = ((l1.find? p).orElse (fun _ => l2.find? p)) := by
  induction l1 with
  | nil => rfl
  | cons a t ih =>
    by_cases h : p a
    · simp [List.find?, h]
    · simp only [List.cons_append, List.find?, h]
      simpa using ih

/-! ## Rectangular arrays of pixels -/

/-- `Rect H W A` states that `A` is an `H`-row array each of whose rows has
width `W` (the implicit equal-shape precondition of the fusion loop). -/
def Rect {α : Type} (H W : Nat) (A : List (List α)) : Prop :=
  A.length = H ∧ ∀ i, i < H → (A.getD i []).length = W

/-- `Bytes A` states that every entry of `A` is a valid unsigned 8-bit
value, as produced by the image decoder for annotation files. -/
def Bytes (A : List (List Nat)) : Prop :=
  ∀ r ∈ A, ∀ v ∈ r, v < 256

instance (A : List (List Nat)) : Decidable (Bytes A) := by
  unfold Bytes; infer_instance

/-- Elementwise map over a 2-D array (a lifted numpy elementwise op). -/
def mapA {α β : Type} (f : α → β) (A : List (List α)) : List (List β) :=
  A.map (fun r => r.map f)

/-- Elementwise combination of two 2-D arrays of one shape (a lifted numpy
binary elementwise op). -/
def map2 {α β γ : Type} (f : α → β → γ) (A : List (List α)) (B : List (List β)) :
    List (List γ) :=
  List.zipWith (List.zipWith f) A B

theorem rect_mapA {α β : Type} {H W : Nat} (f : α → β) {A : List (List α)}
    (hA : Rect H W A) : Rect H W (mapA f A) := by
  obtain ⟨hlen, hrow⟩ := hA
  constructor
  · simpa [mapA] using hlen
  · intro i hi
    have hiA : i < A.length := by rw [hlen]; exact hi
    rw [mapA, getD_map_lt (fun r => r.map f) A i hiA [], List.length_map, hrow i hi]

theorem rect_map2 {α β γ : Type} {H W : Nat} (f : α → β → γ)
    {A : List (List α)} {B : List (List β)}
    (hA : Rect H W A) (hB : Rect H W B) : Rect H W (map2 f A B) := by
  obtain ⟨hlenA, hrowA⟩ := hA
  obtain ⟨hlenB, hrowB⟩ := hB
  constructor
  · simp [map2, List.length_zipWith, hlenA, hlenB]
  · intro i hi
    have hiA : i < A.length := by rw [hlenA]; exact hi
    have hiB : i < B.length := by rw [hlenB]; exact hi
    rw [map2, getD_zipWith_lt (List.zipWith f) A B i hiA hiB [] [],
      List.length_zipWith, hrowA i hi, hrowB i hi]
    exact Nat.min_self W

theorem at2_mapA {α β : Type} {H W : Nat} (f : α → β) {A : List (List α)}
    (hA : Rect H W A) {i j : Nat} (hi : i < H) (hj : j < W) (da : α) (db : β) :
    at2 db (mapA f A) i j = f (at2 da A i j) := by
  obtain ⟨hlen, hrow⟩ := hA
  have hiA : i < A.length := by rw [hlen]; exact hi
  have hjr : j < (A.getD i []).length := by rw [hrow i hi]; exact hj
  rw [at2, at2, mapA, getD_map_lt (fun r => r.map f) A i hiA [],
    getD_map_lt f (A.getD i []) j hjr da]

theorem at2_map2 {α β γ : Type} {H W : Nat} (f : α → β → γ)
    {A : List (List α)} {B : List (List β)}
    (hA : Rect H W A) (hB : Rect H W B) {i j : Nat} (hi : i < H) (hj : j < W)
    (da : α) (db : β) (dc : γ) :
    at2 dc (map2 f A B) i j = f (at2 da A i j) (at2 db B i j) := by
  obtain ⟨hlenA, hrowA⟩ := hA
  obtain ⟨hlenB, hrowB⟩ := hB
  have hiA : i < A.length := by rw [hlenA]; exact hi
  have hiB : i < B.length := by rw [hlenB]; exact hi
  have hjA : j < (A.getD i []).length := by rw [hrowA i hi]; exact hj
  have hjB : j < (B.getD i []).length := by rw [hrowB i hi]; exact hj
  rw [at2, at2, at2, map2, getD_zipWith_lt (List.zipWith f) A B i hiA hiB [] [],
    getD_zipWith_lt f (A.getD i []) (B.getD i []) j hjA hjB da db]

/-- An in-bounds entry of a rectangular byte array is below 256. -/
theorem at2_lt_of_bytes {H W : Nat} {A : List (List Nat)}
    (hA : Rect H W A) (hb : Bytes A) {i j : Nat} (hi : i < H) (hj : j < W) :
    at2 0 A i j < 256 := by
  obtain ⟨hlen, hrow⟩ := hA
  have hiA : i < A.length := by rw [hlen]; exact hi
  have hjr : j < (A.getD i []).length := by rw [hrow i hi]; exact hj
  exact hb _ (getD_mem_lt A i hiA []) _ (getD_mem_lt (A.getD i []) j hjr 0)

/-! ## The label-fusion loop (`MHPv1.read_label`) -/

/-- State of the fusion loop after processing one or more annotation images:
`labels` is the raw data buffer `labels.data` of the masked output
accumulator, `lmask` is its mask `labels._mask`, and `labelIdx` is the plain
uint8 claim accumulator `label_idx`. -/
structure FuseState where
  labels : List (List Nat)
  lmask : List (List Bool)
  labelIdx : List (List Nat)

/-- First iteration of the loop body of `read_label`, for the first decoded
annotation image `lab`: `label_idx` is freshly allocated as zeros of the
image's shape, the masked view of `lab` is built from it (an all-False
mask), `label_idx += np.minimum(label, 1)` runs on raw buffers, and
`labels` is initialised to the masked view of `lab` itself. -/
def fuseInit (lab : List (List Nat)) : FuseState :=
  let idx0 := mapA (fun _ => (0 : Nat)) lab
  let mask := mapA (fun v => v != 0) idx0
  let idx := map2 (fun a b => (a + min b 1) % 256) idx0 lab
  { labels := lab, lmask := mask, labelIdx := idx }

/-- Later iteration of the loop body of `read_label`, for a further decoded
annotation image `lab`:

* `mask` is the mask of `np.ma.masked_array(label, mask=label_idx)`: the
  pixels whose `label_idx` is non-zero at the start of the iteration;
* `label_idx += np.minimum(label, 1)` is performed by `ndarray.__iadd__`
  on the raw data buffers (the left-hand side is a plain array, so the
  right-hand side's mask does not participate), in uint8 arithmetic;
* `labels += label` is performed by `MaskedArray.__iadd__`: it ors the
  right-hand mask into the accumulator mask, then adds the right-hand raw
  data where the updated accumulator mask is False and 0 where it is True,
  in uint8 arithmetic on the raw data buffer. -/
def fuseStep (s : FuseState) (lab : List (List Nat)) : FuseState :=
  let mask := mapA (fun v => v != 0) s.labelIdx
  let idx := map2 (fun a b => (a + min b 1) % 256) s.labelIdx lab
  let lmask := map2 (fun m n => m || n) s.lmask mask
  let contrib := map2 (fun m v => if m then 0 else v) lmask lab
  let labels := map2 (fun d o => (d + o) % 256) s.labels contrib
  { labels := labels, lmask := lmask, labelIdx := idx }

/-- `MHPv1.read_label`: fuse the decoded annotation images in order and
return the raw data buffer of the accumulator (`labels.data`).  The source
returns it as a `1×H×W` uint8 tensor (`unsqueeze(0).to(torch.uint8)`); the
leading singleton dimension and the dtype tag are bookkeeping and the
pixel grid is returned unchanged, so the embedding returns the `H×W`
array.  On an empty path list the source reaches `None.data` and raises,
modelled as `none`. -/
def read_label : List (List (List Nat)) → Option (List (List Nat))
  | [] => none
  | lab :: rest => some ((rest.foldl fuseStep (fuseInit lab)).labels)

/-- The per-pixel claim accumulator `label_idx` after the first `m` further
annotation images (beyond the first) have been processed: the intermediate
loop states of `read_label`. -/
def labelIdxAfter (lab : List (List Nat)) (rest : List (List (List Nat))) (m : Nat) :
    List (List Nat) :=
  ((rest.take m).foldl fuseStep (fuseInit lab)).labelIdx

/-- Spec-side definition (from the specification's words): first-writer-wins
per pixel — the value a pixel receives is the value of the first annotation
in processing order with a non-zero value there, and 0 if every annotation
is zero there. -/
def specFirstWins (xs : List Nat) : Nat :=
  match xs.find? (fun v => v != 0) with
  | some v => v
  | none => 0

/-- The column of values one pixel `(i, j)` takes across an ordered list of
annotation images. -/
def pixCol (labs : List (List (List Nat))) (i j : Nat) : List Nat :=
  labs.map (fun A => at2 0 A i j)

/-! ## Invariant of the fusion loop -/

/-- Loop invariant of `read_label` after the images in `done` (in order)
have been processed: all three state arrays have the common image shape,
the claim accumulator holds, per pixel, the uint8 count of the processed
images with a non-zero value there, the accumulator mask records whether
any image strictly before the last processed one was non-zero there, and
the output buffer already holds the first-wins fusion of `done`. -/
def FuseInv (H W : Nat) (done : List (List (List Nat))) (s : FuseState) : Prop :=
  Rect H W s.labels ∧ Rect H W s.lmask ∧ Rect H W s.labelIdx ∧
  ∀ i j, i < H → j < W →
    at2 0 s.labelIdx i j = (pixCol done i j).countP (fun v => v != 0) % 256 ∧
    at2 false s.lmask i j = (pixCol done i j).dropLast.any (fun v => v != 0) ∧
    at2 0 s.labels i j = specFirstWins (pixCol done i j)

theorem specFirstWins_mem_or_zero (xs : List Nat) :
    specFirstWins xs = 0 ∨ specFirstWins xs ∈ xs := by
  unfold specFirstWins
  cases hf : xs.find? (fun v => v != 0) with
  | none => exact Or.inl rfl
  | some v => exact Or.inr (List.mem_of_find?_eq_some hf)

theorem pixCol_lt {H W : Nat} {done : List (List (List Nat))} {i j : Nat}
    (hdone : ∀ M ∈ done, Rect H W M ∧ Bytes M) (hi : i < H) (hj : j < W) :
    ∀ v ∈ pixCol done i j, v < 256 := by
  intro v hv
  rw [pixCol, List.mem_map] at hv
  obtain ⟨M, hM, rfl⟩ := hv
  exact at2_lt_of_bytes (hdone M hM).1 (hdone M hM).2 hi hj

theorem specFirstWins_lt {H W : Nat} {done : List (List (List Nat))} {i j : Nat}
    (hdone : ∀ M ∈ done, Rect H W M ∧ Bytes M) (hi : i < H) (hj : j < W) :
    specFirstWins (pixCol done i j) < 256 := by
  rcases specFirstWins_mem_or_zero (pixCol done i j) with h | h
  · omega
  · exact pixCol_lt hdone hi hj _ h

/-- The or of the previous mask with the non-zeroness of the uint8 claim
count is exactly "some earlier image was non-zero here": the count passes
through the residue 1 when the pixel is first claimed, so the mask latches
before the count can wrap around. -/
theorem dropLast_any_or_count (p : Nat → Bool) (col : List Nat) (h : col ≠ []) :
    (col.dropLast.any p || ((col.countP p % 256) != 0)) = col.any p := by
  by_cases hd : col.dropLast.any p = true
  · rw [hd, Bool.true_or]
    symm
    rw [List.any_eq_true] at hd ⊢
    obtain ⟨a, ha, hpa⟩ := hd
    exact ⟨a, (List.dropLast_sublist col).subset ha, hpa⟩
  · have hd' : col.dropLast.any p = false := by
      cases hda : col.dropLast.any p with
      | false => rfl
      | true => exact absurd hda hd
    have hall : ∀ a ∈ col.dropLast, ¬ p a := by
      intro a ha hpa
      exact hd (List.any_eq_true.mpr ⟨a, ha, hpa⟩)
    have hc0 : col.dropLast.countP p = 0 := List.countP_eq_zero.mpr hall
    have hsplit : col.dropLast ++ [col.getLast h] = col := List.dropLast_append_getLast h
    have hcount : col.countP p = [col.getLast h].countP p := by
      conv_lhs => rw [← hsplit]
      rw [List.countP_append, hc0, Nat.zero_add]
    have hany : col.any p = [col.getLast h].any p := by
      conv_lhs => rw [← hsplit]
      rw [List.any_append, hd', Bool.false_or]
    rw [hd', Bool.false_or, hcount, hany]
    by_cases hpl : p (col.getLast h) = true
    · simp [hpl]
    · have hpl' : p (col.getLast h) = false := by
        cases hq : p (col.getLast h) with
        | false => rfl
        | true => exact absurd hq hpl
      simp [hpl']

theorem countP_singleton_eq_min (x : Nat) :
    [x].countP (fun v => v != 0) = min x 1 := by
  cases x with
  | zero => simp [List.countP, List.countP.go]
  | succ n => simp [List.countP, List.countP.go, Nat.min_def]

theorem fuseInv_init {H W : Nat} {A : List (List Nat)} (hA : Rect H W A) :
    FuseInv H W [A] (fuseInit A) := by
  have hz : Rect H W (mapA (fun _ => (0 : Nat)) A) := rect_mapA _ hA
  refine ⟨hA, rect_mapA _ hz, rect_map2 _ hz hA, ?_⟩
  intro i j hi hj
  have hcol : pixCol [A] i j = [at2 0 A i j] := by simp [pixCol]
  refine ⟨?_, ?_, ?_⟩
  · rw [fuseInit, at2_map2 _ hz hA hi hj 0 0 0, at2_mapA _ hA hi hj 0 0, hcol,
      countP_singleton_eq_min]
    omega
  · rw [fuseInit, at2_mapA _ hz hi hj 0 false, at2_mapA _ hA hi hj 0 0, hcol]
    simp
  · rw [fuseInit, hcol]
    cases hx : at2 0 A i j with
    | zero => simp [specFirstWins, List.find?]
    | succ n => simp [specFirstWins, List.find?]

theorem fuseInv_step {H W : Nat} {done : List (List (List Nat))} {s : FuseState}
    {lab : List (List Nat)} (hne : done ≠ [])
    (hdone : ∀ M ∈ done, Rect H W M ∧ Bytes M)
    (hlab : Rect H W lab) (hblab : Bytes lab)
    (hinv : FuseInv H W done s) : FuseInv H W (done ++ [lab]) (fuseStep s lab) := by
  obtain ⟨hL, hM, hI, hpix⟩ := hinv
  have hmask : Rect H W (mapA (fun v => v != 0) s.labelIdx) := rect_mapA _ hI
  have hidx : Rect H W (map2 (fun a b => (a + min b 1) % 256) s.labelIdx lab) :=
    rect_map2 _ hI hlab
  have hlm : Rect H W (map2 (fun m n => m || n) s.lmask
      (mapA (fun v => v != 0) s.labelIdx)) := rect_map2 _ hM hmask
  have hcon : Rect H W (map2 (fun m v => if m then 0 else v)
      (map2 (fun m n => m || n) s.lmask (mapA (fun v => v != 0) s.labelIdx)) lab) :=
    rect_map2 _ hlm hlab
  refine ⟨rect_map2 _ hL hcon, hlm, hidx, ?_⟩
  intro i j hi hj
  obtain ⟨hpidx, hpmask, hpdata⟩ := hpix i j hi hj
  have hcolne : pixCol done i j ≠ [] := by
    rw [pixCol]
    intro hcontra
    exact hne (List.map_eq_nil_iff.mp hcontra)
  have hcol : pixCol (done ++ [lab]) i j = pixCol done i j ++ [at2 0 lab i j] := by
    simp [pixCol]
  have hmaskAt : at2 false (mapA (fun v => v != 0) s.labelIdx) i j
      = ((pixCol done i j).countP (fun v => v != 0) % 256 != 0) := by
    rw [at2_mapA _ hI hi hj 0 false, hpidx]
  have hlmAt : at2 false (map2 (fun m n => m || n) s.lmask
      (mapA (fun v => v != 0) s.labelIdx)) i j
      = (pixCol done i j).any (fun v => v != 0) := by
    rw [at2_map2 _ hM hmask hi hj false false false, hmaskAt, hpmask]
    exact dropLast_any_or_count _ _ hcolne
  refine ⟨?_, ?_, ?_⟩
  · rw [fuseStep, at2_map2 _ hI hlab hi hj 0 0 0, hpidx, hcol, List.countP_append,
      countP_singleton_eq_min, Nat.mod_add_mod]
  · rw [fuseStep, hlmAt, hcol, List.dropLast_concat]
  · rw [fuseStep, at2_map2 _ hL hcon hi hj 0 0 0,
      at2_map2 _ hlm hlab hi hj false 0 0, hlmAt, hpdata, hcol]
    by_cases hany : (pixCol done i j).any (fun v => v != 0) = true
    · rw [hany, if_pos rfl, Nat.add_zero]
      obtain ⟨v, hv, hpv⟩ := List.any_eq_true.mp hany
      have hfs : ∃ w, (pixCol done i j).find? (fun v => v != 0) = some w := by
        cases hf : (pixCol done i j).find? (fun v => v != 0) with
        | none => exact absurd hpv (List.find?_eq_none.mp hf v hv)
        | some w => exact ⟨w, rfl⟩
      obtain ⟨w, hw⟩ := hfs
      have heq : specFirstWins (pixCol done i j ++ [at2 0 lab i j])
          = specFirstWins (pixCol done i j) := by
        rw [specFirstWins, specFirstWins, find?_append_eq, hw]
        rfl
      rw [heq, Nat.mod_eq_of_lt (specFirstWins_lt hdone hi hj)]
    · have hany' : (pixCol done i j).any (fun v => v != 0) = false := by
        cases hq : (pixCol done i j).any (fun v => v != 0) with
        | false => rfl
        | true => exact absurd hq hany
      have hfn : (pixCol done i j).find? (fun v => v != 0) = none := by
        rw [List.find?_eq_none]
        intro a ha hpa
        exact hany (List.any_eq_true.mpr ⟨a, ha, hpa⟩)
      have hz : specFirstWins (pixCol done i j) = 0 := by
        rw [specFirstWins, hfn]
      rw [hany', if_neg (by simp), hz, Nat.zero_add]
      have hxlt : at2 0 lab i j < 256 := at2_lt_of_bytes hlab hblab hi hj
      rw [specFirstWins, find?_append_eq, hfn]
      cases hx : at2 0 lab i j with
      | zero => simp [List.find?]
      | succ n =>
        rw [Nat.mod_eq_of_lt (by omega)]
        simp [List.find?, Option.orElse]

theorem fuseInv_fold {H W : Nat} :
    ∀ (rest done : List (List (List Nat))) (s : FuseState), done ≠ [] →
      (∀ M ∈ done, Rect H W M ∧ Bytes M) →
      (∀ M ∈ rest, Rect H W M ∧ Bytes M) →
      FuseInv H W done s → FuseInv H W (done ++ rest) (rest.foldl fuseStep s) := by
  intro rest
  induction rest with
  | nil =>
    intro done s _ _ _ hinv
    simpa using hinv
  | cons B t ih =>
    intro done s hne hdone hrest hinv
    have hB := hrest B (List.mem_cons_self B t)
    have hstep := fuseInv_step hne hdone hB.1 hB.2 hinv
    have hassoc : done ++ B :: t = (done ++ [B]) ++ t := by simp
    rw [hassoc, List.foldl_cons]
    refine ih (done ++ [B]) (fuseStep s B) (by simp) ?_ ?_ hstep
    · intro M hM
      rcases List.mem_append.mp hM with h | h
      · exact hdone M h
      · rw [List.mem_singleton.mp h]
        exact hB
    · intro M hM
      exact hrest M (List.mem_cons_of_mem B hM)

instance (H W : Nat) (A : List (List Nat)) : Decidable (Rect H W A) := by
  unfold Rect; infer_instance

/-- An in-bounds entry of a rectangular array belongs to one of its rows. -/
theorem at2_mem {α : Type} {H W : Nat} {A : List (List α)} (hA : Rect H W A)
    {i j : Nat} (hi : i < H) (hj : j < W) (d : α) : ∃ r ∈ A, at2 d A i j ∈ r := by
  obtain ⟨hlen, hrow⟩ := hA
  have hiA : i < A.length := by rw [hlen]; exact hi
  have hjr : j < (A.getD i []).length := by rw [hrow i hi]; exact hj
  exact ⟨A.getD i [], getD_mem_lt A i hiA [], getD_mem_lt (A.getD i []) j hjr d⟩

/-! ## Claims about the fusion loop -/

/-- C1. First-wins fusion: for every non-empty ordered list of same-shape
uint8 annotation arrays, each pixel of the fused map returned by
`read_label` equals the value assigned by the first annotation in
processing order with a non-zero value at that pixel (and 0 when none is),
so every later annotation is ignored at that pixel; fusing `[A, B]` yields
`A`'s value wherever `A` is non-zero, and `[B, A]` yields `B`'s there. -/
theorem read_label_first_wins (A : List (List Nat)) (rest : List (List (List Nat)))
    (H W : Nat) (hrect : ∀ M ∈ A :: rest, Rect H W M)
    (hbytes : ∀ M ∈ A :: rest, Bytes M)
    (out : List (List Nat)) (hout : read_label (A :: rest) = some out)
    (i j : Nat) (hi : i < H) (hj : j < W) :
    at2 0 out i j = specFirstWins (pixCol (A :: rest) i j) := by
  have hA := hrect A (List.mem_cons_self A rest)
  have hinit : FuseInv H W [A] (fuseInit A) := fuseInv_init hA
  have hfold : FuseInv H W ([A] ++ rest) (rest.foldl fuseStep (fuseInit A)) := by
    refine fuseInv_fold rest [A] (fuseInit A) (by simp) ?_ ?_ hinit
    · intro M hM
      rw [List.mem_singleton.mp hM]
      exact ⟨hA, hbytes A (List.mem_cons_self A rest)⟩
    · intro M hM
      exact ⟨hrect M (List.mem_cons_of_mem A hM), hbytes M (List.mem_cons_of_mem A hM)⟩
  have hsome : some ((rest.foldl fuseStep (fuseInit A)).labels) = some out := hout
  have houteq : (rest.foldl fuseStep (fuseInit A)).labels = out := by
    injection hsome
  rw [← houteq]
  have := (hfold.2.2.2 i j hi hj).2.2
  simpa using this

/-- Witness for C1 at concrete inputs: fusing `[[[3]], [[7]]]` yields 3 at
the overlapping pixel and fusing `[[[7]], [[3]]]` yields 7 there. -/
theorem read_label_first_wins_witness :
    at2 0 [[3]] 0 0 = specFirstWins (pixCol [[[3]], [[7]]] 0 0) ∧
    at2 0 [[7]] 0 0 = specFirstWins (pixCol [[[7]], [[3]]] 0 0) :=
  ⟨read_label_first_wins [[3]] [[[7]]] 1 1 (by decide) (by decide) [[3]]
      (by decide) 0 0 (by decide) (by decide),
    read_label_first_wins [[7]] [[[3]]] 1 1 (by decide) (by decide) [[7]]
      (by decide) 0 0 (by decide) (by decide)⟩

/-- C5. Fusion output range: for every non-empty list of same-shape
annotation arrays whose values all lie in `0..18`, every value of the
fused map returned by `read_label` lies in `0..18`; in particular the
fusion never produces the reserved ignore-value 255 and never an
out-of-range sum at overlapping non-zero pixels. -/
theorem read_label_range (A : List (List Nat)) (rest : List (List (List Nat)))
    (H W : Nat) (hrect : ∀ M ∈ A :: rest, Rect H W M)
    (h18 : ∀ M ∈ A :: rest, ∀ r ∈ M, ∀ v ∈ r, v ≤ 18)
    (out : List (List Nat)) (hout : read_label (A :: rest) = some out) :
    ∀ r ∈ out, ∀ v ∈ r, v ≤ 18 := by
  have hbytes : ∀ M ∈ A :: rest, Bytes M := by
    intro M hM r hr v hv
    have := h18 M hM r hr v hv
    omega
  have hA := hrect A (List.mem_cons_self A rest)
  have hinit : FuseInv H W [A] (fuseInit A) := fuseInv_init hA
  have hfold : FuseInv H W ([A] ++ rest) (rest.foldl fuseStep (fuseInit A)) := by
    refine fuseInv_fold rest [A] (fuseInit A) (by simp) ?_ ?_ hinit
    · intro M hM
      rw [List.mem_singleton.mp hM]
      exact ⟨hA, hbytes A (List.mem_cons_self A rest)⟩
    · intro M hM
      exact ⟨hrect M (List.mem_cons_of_mem A hM), hbytes M (List.mem_cons_of_mem A hM)⟩
  have hsome : some ((rest.foldl fuseStep (fuseInit A)).labels) = some out := hout
  have houteq : (rest.foldl fuseStep (fuseInit A)).labels = out := by
    injection hsome
  have hrectOut : Rect H W out := houteq ▸ hfold.1
  intro r hr v hv
  obtain ⟨i, hiL, hieq⟩ := List.mem_iff_getElem.mp hr
  obtain ⟨j, hjL, hjeq⟩ := List.mem_iff_getElem.mp hv
  have hi : i < H := by rw [← hrectOut.1]; exact hiL
  have hrowi : out.getD i [] = r := by rw [List.getD_eq_getElem out [] hiL, hieq]
  have hj : j < W := by
    have := hrectOut.2 i hi
    rw [hrowi] at this
    rw [← this]; exact hjL
  have hva : at2 0 out i j = v := by
    rw [at2, hrowi, List.getD_eq_getElem r 0 hjL, hjeq]
  have hpix : at2 0 out i j = specFirstWins (pixCol (A :: rest) i j) := by
    rw [← houteq]
    have := (hfold.2.2.2 i j hi hj).2.2
    simpa using this
  rw [← hva, hpix]
  rcases specFirstWins_mem_or_zero (pixCol (A :: rest) i j) with h | h
  · omega
  · rw [pixCol, List.mem_map] at h
    obtain ⟨M, hM, hMeq⟩ := h
    obtain ⟨rw_, hrw, hmem⟩ := at2_mem (hrect M hM) hi hj 0
    rw [pixCol, ← hMeq]
    exact h18 M hM _ hrw _ hmem

/-- Witness for C5 at a concrete input: fusing two overlapping in-range
annotations stays in `0..18`. -/
theorem read_label_range_witness : (3 : Nat) ≤ 18 :=
  read_label_range [[3]] [[[7]]] 1 1 (by decide) (by decide) [[3]] (by decide)
    [3] (by decide) 3 (by decide)

/-- C6 (counterexample). With two overlapping non-zero annotations the
claim accumulator `label_idx` of the fusion loop reaches the value 2 at
the shared pixel: it is not confined to `{0, 1}`.  The in-place update
`label_idx += np.minimum(label, 1)` has a plain ndarray on the left, so
numpy performs it on the raw data buffers and the masked-out (already
claimed) pixels are incremented as well. -/
theorem label_idx_not_claim_bit :
    ((labelIdxAfter [[1]] [[[1]]] 1).all
      (fun r => r.all (fun v => v == 0 || v == 1))) = false := by
  decide

/-- C6 (amended). During fusion the per-pixel claim accumulator
`label_idx` holds, at each pixel, the number of annotations processed so
far with a non-zero value there, reduced modulo 256 (uint8): it is 0 or 1
only while at most one such annotation has been seen, it keeps growing on
further overlaps, and it is non-decreasing (and stays non-zero once
non-zero) only as long as fewer than 256 annotations claim the pixel. -/
theorem label_idx_counts (A : List (List Nat)) (rest : List (List (List Nat)))
    (H W : Nat) (hrect : ∀ M ∈ A :: rest, Rect H W M)
    (hbytes : ∀ M ∈ A :: rest, Bytes M)
    (m i j : Nat) (hi : i < H) (hj : j < W) :
    at2 0 (labelIdxAfter A rest m) i j
      = (pixCol (A :: rest.take m) i j).countP (fun v => v != 0) % 256 := by
  have hA := hrect A (List.mem_cons_self A rest)
  have hinit : FuseInv H W [A] (fuseInit A) := fuseInv_init hA
  have hfold : FuseInv H W ([A] ++ rest.take m)
      ((rest.take m).foldl fuseStep (fuseInit A)) := by
    refine fuseInv_fold (rest.take m) [A] (fuseInit A) (by simp) ?_ ?_ hinit
    · intro M hM
      rw [List.mem_singleton.mp hM]
      exact ⟨hA, hbytes A (List.mem_cons_self A rest)⟩
    · intro M hM
      have hM' : M ∈ rest := List.mem_of_mem_take hM
      exact ⟨hrect M (List.mem_cons_of_mem A hM'), hbytes M (List.mem_cons_of_mem A hM')⟩
  have := (hfold.2.2.2 i j hi hj).1
  simpa [labelIdxAfter] using this

/-- Witness for C6's amended claim at a concrete input: after the two
overlapping annotations `[[1]]` and `[[1]]`, the accumulator holds the
claim count 2 at the shared pixel. -/
theorem label_idx_counts_witness :
    at2 0 (labelIdxAfter [[1]] [[[1]]] 1) 0 0
      = (pixCol [[[1]], [[1]]] 0 0).countP (fun v => v != 0) % 256 :=
  label_idx_counts [[1]] [[[1]]] 1 1 (by decide) (by decide) 1 0 0
    (by decide) (by decide)

/-- C7. Single-input identity: fusing an annotation list of length 1
returns that annotation's pixel grid unchanged (the source additionally
re-adds a leading singleton dimension and re-tags the dtype as uint8,
which leave every pixel value unchanged). -/
theorem read_label_singleton (A : List (List Nat)) : read_label [A] = some A := rfl

/-! ## The file-index builder (`MHPv1.get_files` and `MHPv1.__init__`)

Filenames are embedded as `List Char`.  The filesystem is abstracted as
the recursive listing of the files under `root/annotations` (what
`rglob` walks) and the two manifest line lists (what reading
`train_list.txt` / `test_list.txt` yields); both are inputs of the
embedded builder. -/

/-- `f.split('.')[0]`: the portion of a manifest filename before its first
dot. -/
def stemFirst (f : List Char) : List Char := f.takeWhile (fun c => c != '.')

/-- `pathlib`'s `Path(name).stem`: the filename minus its last suffix,
where a suffix is a final dot-segment whose dot is neither the first nor
the last character of the name. -/
def pathStem (n : List Char) : List Char :=
  match n.reverse.findIdx? (fun c => c == '.') with
  | none => n
  | some k =>
    let i := n.length - 1 - k
    if 0 < i ∧ i < n.length - 1 then n.take i else n

/-- `rglob('*.png')` membership: the filename matches the pattern
`*.png`, i.e. ends with `.png`. -/
def matchesPng (n : List Char) : Bool := (".png".toList).isSuffixOf n

/-- `root/'images'/f` as a path string. -/
def imagePath (root f : List Char) : List Char := root ++ ("/images/".toList) ++ f

/-- The annotation list built for one manifest filename `f`:
`list(filter(lambda x: x.stem.startswith(img_name), all_labels))` where
`all_labels = list((root/'annotations').rglob('*.png'))` over the
directory listing `pool` and `img_name = f.split('.')[0]`. -/
def labelsFor (pool : List (List Char)) (f : List Char) : List (List Char) :=
  (pool.filter (fun n => matchesPng n)).filter
    (fun n => (stemFirst f).isPrefixOf (pathStem n))

/-- The slice of the manifest the split selects: the first 3000 lines of
the train manifest for `train`, the rest for `val`, and the whole test
manifest for `test` (any other split name reads the train manifest whole,
though `__init__` rejects it first). -/
def selectedFiles (trainM testM : List (List Char)) (split : String) :
    List (List Char) :=
  let all_files := if split == "test" then testM else trainM
  if split == "train" then all_files.take 3000
  else if split == "val" then all_files.drop 3000
  else all_files

/-- The per-image annotation lists of the loop body of `get_files`, with
`assert labels_per_images != []` modelled as failure. -/
def buildLabels (pool : List (List Char)) : List (List Char) → Option (List (List (List Char)))
  | [] => some []
  | f :: fs =>
    if (labelsFor pool f).isEmpty then none
    else
      match buildLabels pool fs with
      | none => none
      | some rest => some (labelsFor pool f :: rest)

/-- `MHPv1.get_files`: build the parallel image-path and annotation-list
sequences for the chosen split (the final
`assert len(images) == len(labels)` holds by construction, see
`init_failure_iff_and_postconditions`). -/
def get_files (root : List Char) (pool : List (List Char))
    (trainM testM : List (List Char)) (split : String) :
    Option (List (List Char) × List (List (List Char))) :=
  let files := selectedFiles trainM testM split
  match buildLabels pool files with
  | none => none
  | some labels => some (files.map (fun f => imagePath root f), labels)

/-- `MHPv1.__init__`: `assert split in ['train', 'val', 'test']`, then
build the index with `get_files`. -/
def MHPv1_init (root : List Char) (pool : List (List Char))
    (trainM testM : List (List Char)) (split : String) :
    Option (List (List Char) × List (List (List Char))) :=
  if split == "train" || split == "val" || split == "test" then
    get_files root pool trainM testM split
  else none

theorem buildLabels_eq_none_iff (pool : List (List Char)) :
    ∀ fs : List (List Char),
      buildLabels pool fs = none ↔ ∃ f ∈ fs, labelsFor pool f = [] := by
  intro fs
  induction fs with
  | nil => simp [buildLabels]
  | cons f t ih =>
    by_cases h : (labelsFor pool f).isEmpty
    · rw [buildLabels, if_pos h]
      simp only [true_iff]
      exact ⟨f, List.mem_cons_self f t, List.isEmpty_iff.mp h⟩
    · rw [buildLabels, if_neg h]
      cases hb : buildLabels pool t with
      | none =>
        simp only [true_iff]
        obtain ⟨g, hg, hge⟩ := (ih).mp hb
        exact ⟨g, List.mem_cons_of_mem f hg, hge⟩
      | some rest =>
        constructor
        · intro hcontra
          cases hcontra
        · intro hcontra
          obtain ⟨g, hg, hge⟩ := hcontra
          rcases List.mem_cons.mp hg with rfl | hg'
          · exact absurd (List.isEmpty_iff.mpr hge) h
          · rw [(ih).mpr ⟨g, hg', hge⟩] at hb
            cases hb

theorem buildLabels_eq_some (pool : List (List Char)) :
    ∀ (fs : List (List Char)) (ls : List (List (List Char))),
      buildLabels pool fs = some ls → ls.length = fs.length ∧ ∀ l ∈ ls, l ≠ [] := by
  intro fs
  induction fs with
  | nil =>
    intro ls h
    rw [buildLabels] at h
    injection h with h
    subst h
    exact ⟨rfl, by intro l hl; cases hl⟩
  | cons f t ih =>
    intro ls h
    rw [buildLabels] at h
    by_cases he : (labelsFor pool f).isEmpty
    · rw [if_pos he] at h; cases h
    · rw [if_neg he] at h
      cases hb : buildLabels pool t with
      | none => rw [hb] at h; cases h
      | some rest =>
        rw [hb] at h
        injection h with h
        subst h
        obtain ⟨hlen, hne⟩ := ih rest hb
        refine ⟨by simp [hlen], ?_⟩
        intro l hl
        rcases List.mem_cons.mp hl with rfl | hl'
        · intro hcontra
          exact he (List.isEmpty_iff.mpr hcontra)
        · exact hne l hl'

/-! ## Claims about the file-index builder -/

/-- C2. Annotation matching rule: an annotation file from the recursive
listing of `root/annotations` belongs to the list built for manifest
filename `f` exactly when it matches `*.png` and its `pathlib` stem
starts with `f`'s stem (the portion of `f` before the first dot). -/
theorem labelsFor_mem_iff (pool : List (List Char)) (f a : List Char) :
    a ∈ labelsFor pool f ↔
      a ∈ pool ∧ matchesPng a = true ∧
        (stemFirst f).isPrefixOf (pathStem a) = true := by
  rw [labelsFor, List.mem_filter, List.mem_filter]
  tauto

/-- Witness for C2 at a concrete input: `a_01.png` is matched to manifest
entry `a.jpg`. -/
theorem labelsFor_mem_iff_witness :
    ("a_01.png".toList) ∈ labelsFor [("a_01.png".toList)] ("a.jpg".toList) :=
  (labelsFor_mem_iff [("a_01.png".toList)] ("a.jpg".toList) ("a_01.png".toList)).mpr
    (by decide)

/-- C3. Split partition: on a train manifest of `N` lines, `train`
selects exactly the first 3000 lines (`train_count = min(N, 3000)`),
`val` exactly the lines from position 3000 on
(`train_count + val_count = N`), and `test` all lines of the test
manifest; manifest order is preserved in the image index. -/
theorem get_files_split_partition (root : List Char) (pool : List (List Char))
    (trainM testM : List (List Char))
    (itr ival ite : List (List Char)) (ltr lval lte : List (List (List Char)))
    (htr : get_files root pool trainM testM "train" = some (itr, ltr))
    (hval : get_files root pool trainM testM "val" = some (ival, lval))
    (hte : get_files root pool trainM testM "test" = some (ite, lte)) :
    itr = (trainM.take 3000).map (fun f => imagePath root f) ∧
    ival = (trainM.drop 3000).map (fun f => imagePath root f) ∧
    ite = testM.map (fun f => imagePath root f) ∧
    itr.length = min trainM.length 3000 ∧
    itr.length + ival.length = trainM.length := by
  have etr : selectedFiles trainM testM "train" = trainM.take 3000 := rfl
  have eval : selectedFiles trainM testM "val" = trainM.drop 3000 := rfl
  have ete : selectedFiles trainM testM "test" = testM := rfl
  rw [get_files, etr] at htr
  rw [get_files, eval] at hval
  rw [get_files, ete] at hte
  have htr' : itr = (trainM.take 3000).map (fun f => imagePath root f) := by
    cases hb : buildLabels pool (trainM.take 3000) with
    | none => rw [hb] at htr; cases htr
    | some ls =>
      rw [hb] at htr
      injection htr with h
      exact (congrArg Prod.fst h).symm
  have hval' : ival = (trainM.drop 3000).map (fun f => imagePath root f) := by
    cases hb : buildLabels pool (trainM.drop 3000) with
    | none => rw [hb] at hval; cases hval
    | some ls =>
      rw [hb] at hval
      injection hval with h
      exact (congrArg Prod.fst h).symm
  have hte' : ite = testM.map (fun f => imagePath root f) := by
    cases hb : buildLabels pool testM with
    | none => rw [hb] at hte; cases hte
    | some ls =>
      rw [hb] at hte
      injection hte with h
      exact (congrArg Prod.fst h).symm
  refine ⟨htr', hval', hte', ?_, ?_⟩
  · rw [htr', List.length_map, List.length_take]
    omega
  · rw [htr', hval', List.length_map, List.length_map, List.length_take,
      List.length_drop]
    omega

/-- Witness for C3 at a concrete input: a one-line train manifest gives a
train split of length `min 1 3000 = 1` and an empty val split. -/
theorem get_files_split_partition_witness :
    ["/images/a.jpg".toList]
        = ([("a.jpg".toList)].take 3000).map (fun f => imagePath [] f) ∧
      ([] : List (List Char))
        = ([("a.jpg".toList)].drop 3000).map (fun f => imagePath [] f) ∧
      ["/images/a.jpg".toList] = [("a.jpg".toList)].map (fun f => imagePath [] f) ∧
      (["/images/a.jpg".toList] : List (List Char)).length
        = min [("a.jpg".toList)].length 3000 ∧
      (["/images/a.jpg".toList] : List (List Char)).length
        + ([] : List (List Char)).length = [("a.jpg".toList)].length :=
  get_files_split_partition [] [("a_01.png".toList)] [("a.jpg".toList)]
    [("a.jpg".toList)] ["/images/a.jpg".toList] [] ["/images/a.jpg".toList]
    [[("a_01.png".toList)]] [] [[("a_01.png".toList)]]
    (by decide) (by decide) (by decide)

/-- C4. Index completeness, alignment, and loud failure: construction
fails exactly when the split name is invalid or some selected image has
no matching annotation; on success every index entry has at least one
annotation path and the image and label lists have the length of the
selected manifest slice. -/
theorem init_failure_iff_and_postconditions (root : List Char)
    (pool : List (List Char)) (trainM testM : List (List Char)) (split : String) :
    (MHPv1_init root pool trainM testM split = none ↔
      ((split == "train" || split == "val" || split == "test") = false ∨
        ∃ f ∈ selectedFiles trainM testM split, labelsFor pool f = [])) ∧
    ∀ imgs lbls, MHPv1_init root pool trainM testM split = some (imgs, lbls) →
      imgs.length = (selectedFiles trainM testM split).length ∧
      lbls.length = imgs.length ∧
      ∀ l ∈ lbls, l ≠ [] := by
  constructor
  · by_cases hv : (split == "train" || split == "val" || split == "test") = true
    · rw [MHPv1_init, if_pos hv, get_files]
      cases hb : buildLabels pool (selectedFiles trainM testM split) with
      | none =>
        simp only [true_iff]
        exact Or.inr ((buildLabels_eq_none_iff pool _).mp hb)
      | some ls =>
        constructor
        · intro hcontra
          cases hcontra
        · intro hcontra
          rcases hcontra with h | h
          · rw [hv] at h; cases h
          · rw [(buildLabels_eq_none_iff pool _).mpr h] at hb
            cases hb
    · have hv' : (split == "train" || split == "val" || split == "test") = false := by
        cases hq : (split == "train" || split == "val" || split == "test") with
        | false => rfl
        | true => exact absurd hq hv
      rw [MHPv1_init, if_neg (by rw [hv']; exact Bool.false_ne_true)]
      simp only [true_iff]
      exact Or.inl hv'
  · intro imgs lbls hsome
    rw [MHPv1_init] at hsome
    by_cases hv : (split == "train" || split == "val" || split == "test") = true
    · rw [if_pos hv, get_files] at hsome
      cases hb : buildLabels pool (selectedFiles trainM testM split) with
      | none => rw [hb] at hsome; cases hsome
      | some ls =>
        rw [hb] at hsome
        injection hsome with h
        have himg : imgs = (selectedFiles trainM testM split).map
            (fun f => imagePath root f) := (congrArg Prod.fst h).symm
        have hlbl : lbls = ls := (congrArg Prod.snd h).symm
        obtain ⟨hlen, hne⟩ := buildLabels_eq_some pool _ ls hb
        subst hlbl
        refine ⟨by rw [himg, List.length_map], ?_, hne⟩
        rw [himg, List.length_map, hlen]
    · rw [if_neg (by intro hq; exact hv hq)] at hsome
      cases hsome

/-- Witness for C4 at concrete inputs: an invalid split name fails, and a
successful construction has aligned non-empty index entries. -/
theorem init_failure_iff_and_postconditions_witness :
    MHPv1_init [] [("a_01.png".toList)] [("a.jpg".toList)] [] "trian" = none ∧
    ((["/images/a.jpg".toList] : List (List Char)).length
        = (selectedFiles [("a.jpg".toList)] [] "train").length ∧
      ([[("a_01.png".toList)]] : List (List (List Char))).length
        = (["/images/a.jpg".toList] : List (List Char)).length ∧
      ∀ l ∈ ([[("a_01.png".toList)]] : List (List (List Char))), l ≠ []) :=
  ⟨(init_failure_iff_and_postconditions [] [("a_01.png".toList)]
      [("a.jpg".toList)] [] "trian").1.mpr (Or.inl (by decide)),
    (init_failure_iff_and_postconditions [] [("a_01.png".toList)]
      [("a.jpg".toList)] [] "train").2 ["/images/a.jpg".toList]
      [[("a_01.png".toList)]] (by decide)⟩

/-- C9. Prefix over-matching: if manifest filename `f`'s stem (before the
first dot) is a prefix of `g`'s stem, every annotation file matched to
`g` is also in `f`'s annotation list, so one annotation path can appear
in the index entries of several images. -/
theorem labelsFor_over_matching (pool : List (List Char)) (f g a : List Char)
    (hfg : (stemFirst f).isPrefixOf (stemFirst g) = true)
    (ha : a ∈ labelsFor pool g) : a ∈ labelsFor pool f := by
  rw [labelsFor, List.mem_filter] at ha ⊢
  refine ⟨ha.1, ?_⟩
  have h1 : stemFirst f <+: stemFirst g := List.isPrefixOf_iff_prefix.mp hfg
  have h2 : stemFirst g <+: pathStem a := List.isPrefixOf_iff_prefix.mp ha.2
  exact List.isPrefixOf_iff_prefix.mpr (h1.trans h2)

/-- Witness for C9 at concrete inputs: the annotation `10_01.png` of image
`10.jpg` is also matched to image `1.jpg`, whose stem `1` is a prefix of
`10`. -/
theorem labelsFor_over_matching_witness :
    ("10_01.png".toList) ∈ labelsFor [("10_01.png".toList)] ("1.jpg".toList) :=
  labelsFor_over_matching [("10_01.png".toList)] ("1.jpg".toList)
    ("10.jpg".toList) ("10_01.png".toList) (by decide) (by decide)

/-! ## The palette decoder (`MHPv1.decode`) -/

/-- The 19-entry RGB visualization palette `MHPv1.PALETTE`, one triple per
class index. -/
def PALETTE : List (Nat × Nat × Nat) :=
  [(0, 0, 0), (128, 0, 0), (254, 0, 0), (0, 85, 0), (169, 0, 51),
    (254, 85, 0), (255, 0, 85), (0, 119, 220), (85, 85, 0), (190, 153, 153),
    (85, 51, 0), (52, 86, 128), (0, 128, 0), (0, 0, 254), (51, 169, 220),
    (0, 254, 254), (85, 254, 169), (169, 254, 85), (254, 254, 0)]

/-- One row of `MHPv1.decode`'s elementwise lookup `self.PALETTE[label]`:
each class value indexes the palette, and an index with no palette entry
raises (torch advanced indexing), modelled as `none`. -/
def decodeRow : List Nat → Option (List (Nat × Nat × Nat))
  | [] => some []
  | v :: vs =>
    match PALETTE.get? v, decodeRow vs with
    | some c, some cs => some (c :: cs)
    | _, _ => none

/-- `MHPv1.decode`: the palette lookup lifted to an H×W label array,
giving an H×W array of RGB triples (the source lays the triples out as a
trailing axis of size 3). -/
def decode : List (List Nat) → Option (List (List (Nat × Nat × Nat)))
  | [] => some []
  | r :: rs =>
    match decodeRow r, decode rs with
    | some cs, some css => some (cs :: css)
    | _, _ => none

theorem decodeRow_of_le (row : List Nat) (h : ∀ v ∈ row, v ≤ 18) :
    decodeRow row = some (row.map (fun v => PALETTE.getD v (0, 0, 0))) := by
  induction row with
  | nil => rfl
  | cons v vs ih =>
    have hv : v ≤ 18 := h v (List.mem_cons_self v vs)
    have hlt : v < PALETTE.length := by
      rw [show PALETTE.length = 19 from rfl]
      omega
    have hget : PALETTE.get? v = some (PALETTE.getD v (0, 0, 0)) := by
      rw [List.get?_eq_getElem?, List.getElem?_eq_getElem hlt,
        List.getD_eq_getElem PALETTE (0, 0, 0) hlt]
    rw [decodeRow, hget, ih (fun w hw => h w (List.mem_cons_of_mem v hw))]
    rfl

/-- C8. Palette decode correctness: on a label array of valid class
indices in `0..18`, `decode` maps each pixel with value `i` to the fixed
RGB triple `PALETTE[i]`, producing the same-shape array of RGB triples;
in particular `decode` on a single pixel of value `i` is exactly
`PALETTE[i]`. -/
theorem decode_palette_lookup (label : List (List Nat))
    (h : ∀ r ∈ label, ∀ v ∈ r, v ≤ 18) :
    decode label = some (label.map (fun r => r.map (fun v => PALETTE.getD v (0, 0, 0)))) := by
  induction label with
  | nil => rfl
  | cons r rs ih =>
    rw [decode, decodeRow_of_le r (h r (List.mem_cons_self r rs)),
      ih (fun q hq => h q (List.mem_cons_of_mem r hq))]
    rfl

/-- Witness for C8 at a concrete input: class 5 decodes to `PALETTE[5]`. -/
theorem decode_palette_lookup_witness : decode [[5]] = some [[(254, 85, 0)]] := by
  rw [decode_palette_lookup [[5]] (by decide)]
  rfl

theorem decodeRow_none (row : List Nat) (h : ∃ v ∈ row, 18 < v) :
    decodeRow row = none := by
  induction row with
  | nil =>
    obtain ⟨v, hv, _⟩ := h
    cases hv
  | cons w ws ihw =>
    obtain ⟨v, hv, h18⟩ := h
    rcases List.mem_cons.mp hv with rfl | hv'
    · have hget : PALETTE.get? v = none := by
        rw [List.get?_eq_getElem?, List.getElem?_eq_none]
        rw [show PALETTE.length = 19 from rfl]
        omega
      rw [decodeRow, hget]
    · rw [decodeRow, ihw ⟨v, hv', h18⟩]
      cases PALETTE.get? w <;> rfl

/-- C10. Decode on out-of-range values: a label array containing any
value outside `0..18` (its values are unsigned, e.g. the ignore-label
255) makes `decode` fail with an indexing error rather than return a
result. -/
theorem decode_out_of_range (label : List (List Nat))
    (h : ∃ r ∈ label, ∃ v ∈ r, 18 < v) : decode label = none := by
  induction label with
  | nil =>
    obtain ⟨r, hr, _⟩ := h
    cases hr
  | cons r rs ih =>
    obtain ⟨q, hq, v, hv, h18⟩ := h
    rcases List.mem_cons.mp hq with rfl | hq'
    · rw [decode, decodeRow_none q ⟨v, hv, h18⟩]
    · rw [decode, ih ⟨q, hq', v, hv, h18⟩]
      cases decodeRow r <;> rfl

/-- Witness for C10 at a concrete input: the reserved ignore-label 255
has no palette entry and decoding fails. -/
theorem decode_out_of_range_witness : decode [[255]] = none :=
  decode_out_of_range [[255]] (by decide)

end MHPV1
